import Mathlib

/-!
Verification of the movie-recommendation core of `src/app.py`.

The embedding models the `recommend` function (title lookup, dense/sparse
row retrieval, Python's stable descending sort of `enumerate(distances)`,
the slice `[1:6]`, and the score mapping `min(score * 100, 100)`), the
alphabetical `movie_options` list, and the try/except error path that
returns an empty list.  Real-valued similarity scores are modelled as
rationals; Python's stable `sorted(..., reverse=True, key=score)` is
modelled as a stable insertion sort with the "greater-or-equal score"
comparison, which has the same specification (descending by score, ties
kept in original order).
-/

namespace MovieRec

/-- A single recommendation, as built in the loop of `recommend`
(`{'title': ..., 'similarity_score': ...}`). -/
structure Recommendation where
  title : String
  similarity_score : ℚ
deriving DecidableEq, Repr

/-- Stable insertion of `p` into `l`: `p` goes in front of the first
element `q` with `le p q`.  Used to model Python's stable sort. -/
def insertBy (le : α → α → Bool) (p : α) : List α → List α
  | [] => [p]
  | q :: qs => if le p q then p :: q :: qs else q :: insertBy le p qs

/-- Stable sort with respect to `le` (model of Python's `sorted`, which is
guaranteed stable; with `reverse=True` equal elements also keep their
original relative order). -/
def sortBy (le : α → α → Bool) (l : List α) : List α := l.foldr (insertBy le) []

/-- The comparison realised by `sorted(..., reverse=True, key=lambda x: x[1])`
on `(position, score)` pairs: descending by score. -/
def pairGe (a b : Nat × ℚ) : Bool := decide (b.2 ≤ a.2)

/-- `sorted(list(enumerate(distances)), reverse=True, key=lambda x: x[1])`. -/
def sortDesc (l : List (Nat × ℚ)) : List (Nat × ℚ) := sortBy pairGe l

/-- Python's `enumerate`, starting at index `i`. -/
def enumFrom (i : Nat) : List α → List (Nat × α)
  | [] => []
  | x :: xs => (i, x) :: enumFrom (i + 1) xs

/-- `list(enumerate(distances))`. -/
def enumerate (l : List α) : List (Nat × α) := enumFrom 0 l

/-- Value stored at column `j` of a sparse row (`0` when the column is
not stored). -/
def sparseLookup (entries : List (Nat × ℚ)) (j : Nat) : ℚ :=
  match entries.find? (fun e => e.1 == j) with
  | some e => e.2
  | none => 0

/-- `similarity[movie_index].toarray()[0]`: expansion of one stored sparse
row into a dense row of length `n` (the column count of the matrix). -/
def toDenseRow (n : Nat) (entries : List (Nat × ℚ)) : List ℚ :=
  (List.range n).map (sparseLookup entries)

/-- The two physical representations of the similarity structure loaded by
`load_data`: a dense matrix (`similarity1.pkl`) or a sparse one
(`similarity_sparse.npz`, rows stored as explicit `(column, value)` entries
with column count `n`). -/
inductive Similarity where
  | dense (rows : List (List ℚ))
  | sparse (n : Nat) (rows : List (List (Nat × ℚ)))

/-- The row-retrieval branch of `recommend`:
`similarity[movie_index].toarray()[0]` when `is_sparse`, otherwise
`similarity[movie_index]`.  An out-of-range index raises in Python, which
the surrounding `try` turns into a failure; here it is `none`. -/
def getRow? : Similarity → Nat → Option (List ℚ)
  | .dense rows, i => (rows[i]?)
  | .sparse n rows, i => (rows[i]?).map (toDenseRow n)

/-- `sorted(list(enumerate(distances)), reverse=True, key=lambda x: x[1])[1:6]`:
the candidate `(position, score)` pairs kept by `recommend`. -/
def rankedPairs (distances : List ℚ) : List (Nat × ℚ) :=
  ((sortDesc (enumerate distances)).drop 1).take 5

/-- The loop of `recommend`: for each kept pair, look the title up by
position (`movies.iloc[i[0]].title`) and attach
`min(float(i[1]) * 100, 100)`.  A position outside the catalog raises in
Python (aborting the whole call), modelled by `none`. -/
def buildRecs (movies : List String) : List (Nat × ℚ) → Option (List Recommendation)
  | [] => some []
  | p :: ps =>
    match movies[p.1]? with
    | none => none
    | some t =>
      match buildRecs movies ps with
      | none => none
      | some rs => some (⟨t, min (p.2 * 100) 100⟩ :: rs)

/-- `recommend` with the exception path made explicit: the body of the
`try` block, where any failure (absent title, bad row index, bad catalog
position) escapes as the error reported by the `except` handler. -/
def recommendE (movies : List String) (sim : Similarity) (movie : String) :
    Except String (List Recommendation) :=
  match movies.findIdx? (fun t => t == movie) with
  | none => .error "Error generating recommendations"
  | some movie_index =>
    match getRow? sim movie_index with
    | none => .error "Error generating recommendations"
    | some distances =>
      match buildRecs movies (rankedPairs distances) with
      | none => .error "Error generating recommendations"
      | some recs => .ok recs

/-- `recommend(movie)` of `src/app.py`: on any internal failure the
`except` branch reports the error and returns `[]`. -/
def recommend (movies : List String) (sim : Similarity) (movie : String) :
    List Recommendation :=
  match recommendE movies sim movie with
  | .ok recs => recs
  | .error _ => []

/-- `movie_options = sorted(movies['title'].values)`. -/
def movie_options (movies : List String) : List String :=
  sortBy (fun a b => decide (a ≤ b)) movies

/-- The read-only inputs of the core: the catalog and the loaded
similarity structure. -/
structure CoreState where
  movies : List String
  similarity : Similarity

/-- `recommend` as a state-passing computation: the source never assigns
to `movies` or `similarity`, so the state after the call is the state
before it. -/
def recommendRun (s : CoreState) (movie : String) :
    List Recommendation × CoreState :=
  (recommend s.movies s.similarity movie, s)

/-- Computing `movie_options` as a state-passing computation: line 136 of
the source reads the catalog and builds a new sorted list without
modifying the catalog. -/
def movieOptionsRun (s : CoreState) : List String × CoreState :=
  (movie_options s.movies, s)

/-- The order that Python's stable descending sort realises on an
`enumerate` list: score strictly larger, or equal score and smaller
original position. -/
def LexAfter (a b : Nat × ℚ) : Prop := b.2 < a.2 ∨ (a.2 = b.2 ∧ a.1 < b.1)

/-- The sparse rows `S` (with column count `n`) store the same logical
matrix as the dense rows `D`: same row count, every dense row has length
`n`, and entrywise the stored value at each column agrees with the dense
entry. -/
def Represents (n : Nat) (S : List (List (Nat × ℚ))) (D : List (List ℚ)) : Prop :=
  S.length = D.length ∧
  ∀ i, i < D.length →
    (D.getD i []).length = n ∧
    ∀ j, j < n → sparseLookup (S.getD i []) j = (D.getD i []).getD j 0

/-! ### Helper lemmas about the stable sort -/

theorem mem_insertBy (le : α → α → Bool) (p : α) (l : List α) (x : α) :
    x ∈ insertBy le p l ↔ x = p ∨ x ∈ l := by
  induction l with
  | nil => simp [insertBy]
  | cons q qs ih =>
    by_cases h : le p q
    · rw [insertBy, if_pos h]
      exact List.mem_cons
    · rw [insertBy, if_neg h]
      simp only [List.mem_cons, ih]
      tauto

theorem insertBy_perm (le : α → α → Bool) (p : α) (l : List α) :
    (insertBy le p l).Perm (p :: l) := by
  induction l with
  | nil => simp [insertBy]
  | cons q qs ih =>
    by_cases h : le p q
    · simp [insertBy, h]
    · simp only [insertBy, h, if_neg, Bool.false_eq_true, not_false_iff, ite_false]
      exact ((ih.cons q).trans (List.Perm.swap p q qs))

theorem sortBy_perm (le : α → α → Bool) (l : List α) :
    (sortBy le l).Perm l := by
  induction l with
  | nil => simp [sortBy]
  | cons x xs ih =>
    have h1 : sortBy le (x :: xs) = insertBy le x (sortBy le xs) := rfl
    rw [h1]
    exact (insertBy_perm le x (sortBy le xs)).trans (ih.cons x)

theorem length_sortBy (le : α → α → Bool) (l : List α) :
    (sortBy le l).length = l.length :=
  (sortBy_perm le l).length_eq

theorem pairwise_insertBy (le : α → α → Bool)
    (htot : ∀ a b, le a b = true ∨ le b a = true)
    (htrans : ∀ a b c, le a b = true → le b c = true → le a c = true)
    (p : α) (l : List α) (hl : l.Pairwise (fun a b => le a b = true)) :
    (insertBy le p l).Pairwise (fun a b => le a b = true) := by
  induction l with
  | nil => simp [insertBy]
  | cons q qs ih =>
    rcases List.pairwise_cons.mp hl with ⟨hq, hqs⟩
    by_cases h : le p q
    · rw [insertBy, if_pos h]
      refine List.pairwise_cons.mpr ⟨?_, hl⟩
      intro x hx
      rcases List.mem_cons.mp hx with rfl | hx
      · exact h
      · exact htrans p q x h (hq x hx)
    · rw [insertBy, if_neg h]
      refine List.pairwise_cons.mpr ⟨?_, ih hqs⟩
      intro x hx
      rcases (mem_insertBy le p qs x).mp hx with rfl | hx
      · rcases htot x q with h' | h'
        · exact absurd h' h
        · exact h'
      · exact hq x hx

theorem pairwise_sortBy (le : α → α → Bool)
    (htot : ∀ a b, le a b = true ∨ le b a = true)
    (htrans : ∀ a b c, le a b = true → le b c = true → le a c = true)
    (l : List α) :
    (sortBy le l).Pairwise (fun a b => le a b = true) := by
  induction l with
  | nil => simp [sortBy]
  | cons x xs ih => exact pairwise_insertBy le htot htrans x (sortBy le xs) ih

/-! ### Helper lemmas about `enumFrom` / `enumerate` -/

theorem length_enumFrom (i : Nat) (l : List α) :
    (enumFrom i l).length = l.length := by
  induction l generalizing i with
  | nil => rfl
  | cons x xs ih => simp [enumFrom, ih]

theorem mem_enumFrom {i : Nat} {l : List α} {p : Nat × α}
    (hp : p ∈ enumFrom i l) :
    ∃ j, j < l.length ∧ p.1 = i + j ∧ l[j]? = some p.2 := by
  induction l generalizing i with
  | nil => simp [enumFrom] at hp
  | cons x xs ih =>
    rcases List.mem_cons.mp hp with rfl | hp
    · exact ⟨0, by simp⟩
    · rcases ih hp with ⟨j, hj, hfst, hget⟩
      exact ⟨j + 1, by simpa using hj, by omega, by simpa using hget⟩

theorem mem_enumerate {l : List α} {p : Nat × α} (hp : p ∈ enumerate l) :
    p.1 < l.length ∧ l[p.1]? = some p.2 := by
  rcases mem_enumFrom hp with ⟨j, hj, hfst, hget⟩
  simp only [Nat.zero_add] at hfst
  exact ⟨hfst ▸ hj, hfst ▸ hget⟩

theorem getElem_mem_enumFrom (i : Nat) (l : List α) (j : Nat) (hj : j < l.length) :
    (i + j, l[j]) ∈ enumFrom i l := by
  induction l generalizing i j with
  | nil => simp at hj
  | cons x xs ih =>
    cases j with
    | zero => simp [enumFrom]
    | succ j =>
      have hj' : j < xs.length := by simpa using hj
      have := ih (i + 1) j hj'
      refine List.mem_cons.mpr (Or.inr ?_)
      have harith : i + 1 + j = i + (j + 1) := by omega
      simpa [harith] using this

theorem getElem_mem_enumerate (l : List α) (j : Nat) (hj : j < l.length) :
    (j, l[j]) ∈ enumerate l := by
  simpa using getElem_mem_enumFrom 0 l j hj

theorem fst_lt_of_mem_enumFrom {i : Nat} {l : List α} {p : Nat × α}
    (hp : p ∈ enumFrom i l) : i ≤ p.1 ∧ p.1 < i + l.length := by
  rcases mem_enumFrom hp with ⟨j, hj, hfst, -⟩
  omega

theorem pairwise_fst_enumFrom (i : Nat) (l : List α) :
    (enumFrom i l).Pairwise (fun a b => a.1 < b.1) := by
  induction l generalizing i with
  | nil => simp [enumFrom]
  | cons x xs ih =>
    refine List.pairwise_cons.mpr ⟨?_, ih (i + 1)⟩
    intro p hp
    have := (fst_lt_of_mem_enumFrom hp).1
    omega

theorem nodup_enumerate (l : List α) : (enumerate l).Nodup := by
  refine (pairwise_fst_enumFrom 0 l).imp ?_
  intro a b hab
  intro h
  rw [h] at hab
  omega

/-! ### Order facts about `sortDesc` -/

theorem pairGe_total (a b : Nat × ℚ) : pairGe a b = true ∨ pairGe b a = true := by
  simp only [pairGe, decide_eq_true_eq]
  exact le_total b.2 a.2

theorem pairGe_trans (a b c : Nat × ℚ) :
    pairGe a b = true → pairGe b c = true → pairGe a c = true := by
  simp only [pairGe, decide_eq_true_eq]
  intro h1 h2
  exact le_trans h2 h1

theorem pairwise_ge_sortDesc (l : List (Nat × ℚ)) :
    (sortDesc l).Pairwise (fun a b => b.2 ≤ a.2) := by
  have := pairwise_sortBy pairGe pairGe_total pairGe_trans l
  refine this.imp ?_
  intro a b hab
  simpa [pairGe] using hab

theorem snd_le_of_lexAfter {a b : Nat × ℚ} (h : LexAfter a b) : b.2 ≤ a.2 := by
  rcases h with h | ⟨h, -⟩
  · exact le_of_lt h
  · exact le_of_eq h.symm

theorem pairwise_lex_insertBy (p : Nat × ℚ) (l : List (Nat × ℚ))
    (hl : l.Pairwise LexAfter) (hp : ∀ q ∈ l, p.1 < q.1) :
    (insertBy pairGe p l).Pairwise LexAfter := by
  induction l with
  | nil => simp [insertBy]
  | cons q qs ih =>
    rcases List.pairwise_cons.mp hl with ⟨hq, hqs⟩
    by_cases h : pairGe p q
    · rw [insertBy, if_pos h]
      have hqp : q.2 ≤ p.2 := by simpa [pairGe] using h
      refine List.pairwise_cons.mpr ⟨?_, hl⟩
      intro x hx
      have hx2 : x.2 ≤ p.2 := by
        rcases List.mem_cons.mp hx with rfl | hx
        · exact hqp
        · exact le_trans (snd_le_of_lexAfter (hq x hx)) hqp
      rcases lt_or_eq_of_le hx2 with h' | h'
      · exact Or.inl h'
      · exact Or.inr ⟨h'.symm, hp x hx⟩
    · rw [insertBy, if_neg h]
      have hpq : p.2 < q.2 := by
        have := (pairGe_total q p).resolve_right (by simpa using h)
        have hle : p.2 ≤ q.2 := by simpa [pairGe] using this
        rcases lt_or_eq_of_le hle with h' | h'
        · exact h'
        · exact absurd (by simp [pairGe, h'.symm.le]) h
      refine List.pairwise_cons.mpr ⟨?_, ih hqs (fun x hx => hp x (List.mem_cons_of_mem q hx))⟩
      intro x hx
      rcases (mem_insertBy pairGe p qs x).mp hx with rfl | hx
      · exact Or.inl hpq
      · exact hq x hx

theorem pairwise_lex_sortDesc (l : List (Nat × ℚ))
    (hpos : l.Pairwise (fun a b => a.1 < b.1)) :
    (sortDesc l).Pairwise LexAfter := by
  induction l with
  | nil => simp [sortDesc, sortBy]
  | cons x xs ih =>
    rcases List.pairwise_cons.mp hpos with ⟨hx, hxs⟩
    have h1 : sortDesc (x :: xs) = insertBy pairGe x (sortDesc xs) := rfl
    rw [h1]
    refine pairwise_lex_insertBy x (sortDesc xs) (ih hxs) ?_
    intro q hq
    exact hx q ((sortBy_perm pairGe xs).mem_iff.mp hq)

/-! ### Facts about `buildRecs` -/

theorem buildRecs_some_length {movies : List String} {l : List (Nat × ℚ)}
    {rs : List Recommendation} (h : buildRecs movies l = some rs) :
    rs.length = l.length := by
  induction l generalizing rs with
  | nil =>
    simp only [buildRecs, Option.some.injEq] at h
    simp [← h]
  | cons p ps ih =>
    rw [buildRecs] at h
    cases hm : movies[p.1]? with
    | none => rw [hm] at h; exact absurd h (by simp)
    | some t =>
      rw [hm] at h
      cases hb : buildRecs movies ps with
      | none => rw [hb] at h; exact absurd h (by simp)
      | some rs' =>
        rw [hb] at h
        simp only [Option.some.injEq] at h
        subst h
        simp [ih hb]

theorem buildRecs_mem {movies : List String} {l : List (Nat × ℚ)}
    {rs : List Recommendation} (h : buildRecs movies l = some rs)
    {r : Recommendation} (hr : r ∈ rs) :
    ∃ p ∈ l, movies[p.1]? = some r.title ∧
      r.similarity_score = min (p.2 * 100) 100 := by
  induction l generalizing rs with
  | nil =>
    simp only [buildRecs, Option.some.injEq] at h
    subst h
    simp at hr
  | cons p ps ih =>
    rw [buildRecs] at h
    cases hm : movies[p.1]? with
    | none => rw [hm] at h; exact absurd h (by simp)
    | some t =>
      rw [hm] at h
      cases hb : buildRecs movies ps with
      | none => rw [hb] at h; exact absurd h (by simp)
      | some rs' =>
        rw [hb] at h
        simp only [Option.some.injEq] at h
        subst h
        rcases List.mem_cons.mp hr with rfl | hr
        · exact ⟨p, List.mem_cons_self p ps, hm, rfl⟩
        · rcases ih hb hr with ⟨q, hq, hq1, hq2⟩
          exact ⟨q, List.mem_cons_of_mem p hq, hq1, hq2⟩

theorem buildRecs_isSome {movies : List String} {l : List (Nat × ℚ)}
    (h : ∀ p ∈ l, p.1 < movies.length) :
    ∃ rs, buildRecs movies l = some rs := by
  induction l with
  | nil => exact ⟨[], rfl⟩
  | cons p ps ih =>
    have hp : p.1 < movies.length := h p (List.mem_cons_self p ps)
    rcases ih (fun q hq => h q (List.mem_cons_of_mem p hq)) with ⟨rs', hrs'⟩
    refine ⟨⟨movies[p.1], min (p.2 * 100) 100⟩ :: rs', ?_⟩
    rw [buildRecs, List.getElem?_eq_getElem hp, hrs']

theorem score_mono {a b : ℚ} (h : b ≤ a) :
    min (b * 100) 100 ≤ min (a * 100) 100 := by
  have : b * 100 ≤ a * 100 := by nlinarith
  exact min_le_min this le_rfl

theorem buildRecs_pairwise {movies : List String} {l : List (Nat × ℚ)}
    {rs : List Recommendation} (h : buildRecs movies l = some rs)
    (hl : l.Pairwise (fun a b => b.2 ≤ a.2)) :
    rs.Pairwise (fun a b => b.similarity_score ≤ a.similarity_score) := by
  induction l generalizing rs with
  | nil =>
    simp only [buildRecs, Option.some.injEq] at h
    subst h
    simp
  | cons p ps ih =>
    rw [buildRecs] at h
    cases hm : movies[p.1]? with
    | none => rw [hm] at h; exact absurd h (by simp)
    | some t =>
      rw [hm] at h
      cases hb : buildRecs movies ps with
      | none => rw [hb] at h; exact absurd h (by simp)
      | some rs' =>
        rw [hb] at h
        simp only [Option.some.injEq] at h
        subst h
        rcases List.pairwise_cons.mp hl with ⟨hp, hps⟩
        refine List.pairwise_cons.mpr ⟨?_, ih hb hps⟩
        intro r hr
        rcases buildRecs_mem hb hr with ⟨q, hq, -, hq2⟩
        rw [hq2]
        exact score_mono (hp q hq)

/-! ### Unfolding `recommend` once the title and the row are resolved -/

theorem recommend_eq_of_found {movies : List String} {sim : Similarity}
    {movie : String} {idx : Nat} {row : List ℚ}
    (hfind : movies.findIdx? (fun t => t == movie) = some idx)
    (hrow : getRow? sim idx = some row) :
    recommend movies sim movie = (buildRecs movies (rankedPairs row)).getD [] := by
  simp only [recommend, recommendE, hfind, hrow]
  cases h : buildRecs movies (rankedPairs row) with
  | none => simp [h]
  | some rs => simp [h]

theorem rankedPairs_subset {row : List ℚ} :
    rankedPairs row ⊆ sortDesc (enumerate row) := fun _ hp =>
  List.drop_subset 1 _ (List.take_subset 5 _ hp)

theorem mem_enumerate_of_mem_rankedPairs {row : List ℚ} {p : Nat × ℚ}
    (hp : p ∈ rankedPairs row) : p ∈ enumerate row :=
  (sortBy_perm pairGe (enumerate row)).subset (rankedPairs_subset hp)

theorem length_rankedPairs (row : List ℚ) :
    (rankedPairs row).length = min 5 (row.length - 1) := by
  unfold rankedPairs sortDesc enumerate
  rw [List.length_take, List.length_drop, length_sortBy, length_enumFrom]

/-! ### Claim theorems -/

/-- C6: a title absent from the catalog makes the lookup fail (it yields
no index, rather than silently returning a default one), and `recommend`
converts the failure into the reported error of the `except` branch and
the empty result, instead of letting the exception escape. -/
theorem lookup_absent_title_fails (movies : List String) (sim : Similarity)
    (movie : String) (h : movie ∉ movies) :
    movies.findIdx? (fun t => t == movie) = none ∧
    recommendE movies sim movie = .error "Error generating recommendations" ∧
    recommend movies sim movie = [] := by
  have h1 : movies.findIdx? (fun t => t == movie) = none := by
    refine List.findIdx?_eq_none_iff.mpr ?_
    intro x hx
    simp only [beq_eq_false_iff_ne, ne_eq]
    intro h'
    exact h (h' ▸ hx)
  refine ⟨h1, ?_, ?_⟩
  · simp only [recommendE, h1]
  · simp only [recommend, recommendE, h1]

/-- Witness for C6 at the concrete catalog `["Avatar", "Titanic"]` and the
absent title `"Unknown Movie"`. -/
theorem lookup_absent_title_fails_witness :
    ("Unknown Movie" ∉ ["Avatar", "Titanic"]) ∧
    (["Avatar", "Titanic"].findIdx? (fun t => t == "Unknown Movie") = none ∧
      recommendE ["Avatar", "Titanic"] (Similarity.dense [[1, 0], [0, 1]])
        "Unknown Movie" = .error "Error generating recommendations" ∧
      recommend ["Avatar", "Titanic"] (Similarity.dense [[1, 0], [0, 1]])
        "Unknown Movie" = []) :=
  ⟨by decide, lookup_absent_title_fails ["Avatar", "Titanic"]
    (Similarity.dense [[1, 0], [0, 1]]) "Unknown Movie" (by decide)⟩

/-- C8: `recommend` is deterministic and pure.  As a state-passing
computation over the catalog and similarity structure, a call leaves the
state exactly as it was, and a second call on the post-call state returns
the identical output. -/
theorem recommendRun_pure (s : CoreState) (movie : String) :
    (recommendRun s movie).2 = s ∧
    (recommendRun (recommendRun s movie).2 movie).1 = (recommendRun s movie).1 :=
  ⟨rfl, rfl⟩

/-- C9: `movie_options` is the catalog's titles sorted into ascending
lexicographic order: the output is sorted, it is a permutation of the
catalog's titles, and the catalog itself is left unmodified by the
computation. -/
theorem movie_options_sorted (movies : List String) (s : CoreState) :
    (movie_options movies).Pairwise (fun a b => a ≤ b) ∧
    (movie_options movies).Perm movies ∧
    (movieOptionsRun s).2 = s := by
  refine ⟨?_, sortBy_perm _ movies, rfl⟩
  have h := pairwise_sortBy (fun a b : String => decide (a ≤ b))
    (fun a b => by simpa using le_total a b)
    (fun a b c h1 h2 => by
      simp only [decide_eq_true_eq] at *
      exact le_trans h1 h2) movies
  exact h.imp (by simp)

/-- C7: the two row-retrieval branches agree, and therefore so does
`recommend`.  When the sparse rows `S` store the same logical matrix as
the dense rows `D`, the sparse branch (`toarray()[0]` expansion) yields
the same dense row as the dense branch for every index, and `recommend`
returns an identical ranked list under either representation for every
catalog and title. -/
theorem sparse_dense_equivalent (n : Nat) (S : List (List (Nat × ℚ)))
    (D : List (List ℚ)) (h : Represents n S D) :
    (∀ i, getRow? (Similarity.sparse n S) i = getRow? (Similarity.dense D) i) ∧
    ∀ (movies : List String) (movie : String),
      recommend movies (Similarity.sparse n S) movie =
        recommend movies (Similarity.dense D) movie := by
  obtain ⟨hlen, hrow⟩ := h
  have hget : ∀ i, getRow? (Similarity.sparse n S) i = getRow? (Similarity.dense D) i := by
    intro i
    by_cases hi : i < D.length
    · have hiS : i < S.length := by omega
      obtain ⟨hrlen, hentries⟩ := hrow i hi
      have h1 : S[i]? = some S[i] := List.getElem?_eq_getElem hiS
      have h2 : D[i]? = some D[i] := List.getElem?_eq_getElem hi
      have hSd : S.getD i [] = S[i] := List.getD_eq_getElem S [] hiS
      have hDd : D.getD i [] = D[i] := List.getD_eq_getElem D [] hi
      rw [hSd] at hentries
      rw [hDd] at hrlen hentries
      simp only [getRow?, h1, h2, Option.map_some', Option.some.injEq]
      refine List.ext_getElem ?_ ?_
      · simp [toDenseRow, hrlen]
      · intro j h₁ h₂
        have hj : j < n := by simpa [toDenseRow] using h₁
        have : (toDenseRow n S[i])[j] = sparseLookup S[i] j := by
          simp [toDenseRow]
        rw [this, hentries j hj, List.getD_eq_getElem D[i] 0 h₂]
    · have h1 : S[i]? = none := List.getElem?_eq_none (by omega)
      have h2 : D[i]? = none := List.getElem?_eq_none (by omega)
      simp [getRow?, h1, h2]
  refine ⟨hget, ?_⟩
  intro movies movie
  simp only [recommend, recommendE, hget]

/-- Witness for C7 on a concrete 2×2 matrix stored both ways. -/
theorem sparse_dense_equivalent_witness :
    Represents 2 [[(0, (1 : ℚ)), (1, 1/2)], [(0, 1/2), (1, 1)]]
      [[1, 1/2], [1/2, 1]] ∧
    recommend ["A", "B"]
      (Similarity.sparse 2 [[(0, 1), (1, 1/2)], [(0, 1/2), (1, 1)]]) "A" =
      recommend ["A", "B"] (Similarity.dense [[1, 1/2], [1/2, 1]]) "A" := by
  have hrep : Represents 2 [[(0, (1 : ℚ)), (1, 1/2)], [(0, 1/2), (1, 1)]]
      [[1, 1/2], [1/2, 1]] := by
    refine ⟨rfl, ?_⟩
    intro i hi
    have hi2 : i < 2 := by simpa using hi
    interval_cases i <;>
      refine ⟨rfl, ?_⟩ <;>
        (intro j hj; interval_cases j <;> rfl)
  exact ⟨hrep, (sparse_dense_equivalent 2 _ _ hrep).2 ["A", "B"] "A"⟩

/-- C2 counterexample: the code only caps scores above (`min(x*100, 100)`)
and does not clamp below.  On a symmetric matrix with a negative
similarity entry, `recommend` returns a similarity score below 0, so the
returned scores do not all lie in [0, 100]. -/
theorem recommend_negative_score_cex :
    ∃ r ∈ recommend ["A", "B"] (Similarity.dense [[1, -1/2], [-1/2, 1]]) "A",
      r.similarity_score < 0 := by
  refine ⟨⟨"B", -50⟩, ?_, by norm_num⟩
  norm_num [recommend, recommendE, getRow?, rankedPairs, sortDesc, sortBy, insertBy,
    pairGe, enumerate, enumFrom, buildRecs, List.findIdx?_cons, beq_iff_eq]

/-- C2 amended: every returned similarity score is at most 100 — the
upper cap `min(score * 100, 100)` is applied unconditionally, including
for rows with negative entries — and when the similarity row is
entrywise non-negative, as the upstream cosine-similarity construction
produces, every returned score lies in [0, 100].  The code applies no
lower clamp. -/
theorem recommend_score_bounds {movies : List String} {sim : Similarity}
    {movie : String} {idx : Nat} {row : List ℚ}
    (hfind : movies.findIdx? (fun t => t == movie) = some idx)
    (hrow : getRow? sim idx = some row) :
    (∀ r ∈ recommend movies sim movie, r.similarity_score ≤ 100) ∧
    ((∀ x ∈ row, 0 ≤ x) → ∀ r ∈ recommend movies sim movie,
      0 ≤ r.similarity_score ∧ r.similarity_score ≤ 100) := by
  rw [recommend_eq_of_found hfind hrow]
  cases h : buildRecs movies (rankedPairs row) with
  | none => simp
  | some rs =>
    simp only [Option.getD_some]
    have hcap : ∀ r ∈ rs, r.similarity_score ≤ 100 := by
      intro r hr
      rcases buildRecs_mem h hr with ⟨p, -, -, hscore⟩
      rw [hscore]
      exact min_le_right _ _
    refine ⟨hcap, ?_⟩
    intro hnn r hr
    rcases buildRecs_mem h hr with ⟨p, hp, -, hscore⟩
    have hmem : p ∈ enumerate row := mem_enumerate_of_mem_rankedPairs hp
    have hval : 0 ≤ p.2 := hnn p.2 (List.getElem?_mem (mem_enumerate hmem).2)
    refine ⟨?_, hcap r hr⟩
    rw [hscore]
    exact le_min (by nlinarith) (by norm_num)

/-- Witness for the amended C2 on a concrete matrix: the unconditional
upper cap, and the [0, 100] range under row non-negativity. -/
theorem recommend_score_bounds_witness :
    (["A", "B"].findIdx? (fun t => t == "A") = some 0) ∧
    (getRow? (Similarity.dense [[1, 1/2], [1/2, 1]]) 0 = some [1, 1/2]) ∧
    (∀ r ∈ recommend ["A", "B"] (Similarity.dense [[1, 1/2], [1/2, 1]]) "A",
      r.similarity_score ≤ 100) ∧
    ((∀ x ∈ [(1 : ℚ), 1/2], 0 ≤ x) →
      ∀ r ∈ recommend ["A", "B"] (Similarity.dense [[1, 1/2], [1/2, 1]]) "A",
        0 ≤ r.similarity_score ∧ r.similarity_score ≤ 100) := by
  have h := @recommend_score_bounds ["A", "B"]
    (Similarity.dense [[1, 1/2], [1/2, 1]]) "A" 0 [1, 1/2] (by decide) rfl
  exact ⟨by decide, rfl, h.1, h.2⟩

/-- C5: the returned list never exceeds the fixed candidate count `k = 5`
(the slice `[1:6]`) and never exceeds `N - 1` for an `N`-movie catalog
with an `N`-entry similarity row; when fewer candidates remain the list
is simply shorter, never padded. -/
theorem recommend_length_bounds {movies : List String} {sim : Similarity}
    {movie : String} {idx N : Nat} {row : List ℚ}
    (hfind : movies.findIdx? (fun t => t == movie) = some idx)
    (hrow : getRow? sim idx = some row)
    (_hmov : movies.length = N) (hlen : row.length = N) :
    (recommend movies sim movie).length ≤ 5 ∧
    (recommend movies sim movie).length ≤ N - 1 := by
  rw [recommend_eq_of_found hfind hrow]
  cases h : buildRecs movies (rankedPairs row) with
  | none => simp
  | some rs =>
    have hlen' : rs.length = min 5 (N - 1) := by
      rw [buildRecs_some_length h, length_rankedPairs, hlen]
    simp only [Option.getD_some, hlen']
    omega

/-- Witness for C5 on a concrete 2-movie catalog: one recommendation,
which is ≤ 5 and ≤ N − 1 = 1. -/
theorem recommend_length_bounds_witness :
    (["A", "B"].findIdx? (fun t => t == "A") = some 0) ∧
    (getRow? (Similarity.dense [[1, 1/2], [1/2, 1]]) 0 = some [1, 1/2]) ∧
    ((["A", "B"] : List String).length = 2) ∧ (([(1 : ℚ), 1/2]).length = 2) ∧
    (recommend ["A", "B"] (Similarity.dense [[1, 1/2], [1/2, 1]]) "A").length ≤ 5 ∧
    (recommend ["A", "B"] (Similarity.dense [[1, 1/2], [1/2, 1]]) "A").length ≤ 2 - 1 :=
  ⟨by decide, rfl, rfl, rfl,
    @recommend_length_bounds ["A", "B"] (Similarity.dense [[1, 1/2], [1/2, 1]])
      "A" 0 2 [1, 1/2] (by decide) rfl rfl rfl⟩

/-- C10: for a valid resolved index over an `N`-movie catalog with an
`N`-entry similarity row (`N ≥ 1`), the result has exactly
`min 5 (N - 1)` entries.  The candidate count 5 comes from the fixed
slice `[1:6]`; `recommend` takes no `k` parameter a caller could vary. -/
theorem recommend_length_exact {movies : List String} {sim : Similarity}
    {movie : String} {idx N : Nat} {row : List ℚ}
    (hfind : movies.findIdx? (fun t => t == movie) = some idx)
    (hrow : getRow? sim idx = some row)
    (hmov : movies.length = N) (hlen : row.length = N) (_hN : 1 ≤ N) :
    (recommend movies sim movie).length = min 5 (N - 1) := by
  have hvalid : ∀ p ∈ rankedPairs row, p.1 < movies.length := by
    intro p hp
    have := (mem_enumerate (mem_enumerate_of_mem_rankedPairs hp)).1
    omega
  rcases buildRecs_isSome hvalid with ⟨rs, hrs⟩
  rw [recommend_eq_of_found hfind hrow, hrs, Option.getD_some,
    buildRecs_some_length hrs, length_rankedPairs, hlen]

/-- Witness for C10 on a concrete 4-movie catalog: exactly
`min 5 3 = 3` recommendations. -/
theorem recommend_length_exact_witness :
    (["A", "B", "C", "D"].findIdx? (fun t => t == "A") = some 0) ∧
    (getRow? (Similarity.dense [[1, 9/10, 1/5, 1/2], [9/10, 1, 0, 0],
        [1/5, 0, 1, 0], [1/2, 0, 0, 1]]) 0 = some [1, 9/10, 1/5, 1/2]) ∧
    ((["A", "B", "C", "D"] : List String).length = 4) ∧
    (([(1 : ℚ), 9/10, 1/5, 1/2]).length = 4) ∧ (1 ≤ 4) ∧
    (recommend ["A", "B", "C", "D"]
        (Similarity.dense [[1, 9/10, 1/5, 1/2], [9/10, 1, 0, 0],
          [1/5, 0, 1, 0], [1/2, 0, 0, 1]]) "A").length = min 5 (4 - 1) :=
  ⟨by decide, rfl, rfl, rfl, by norm_num,
    @recommend_length_exact ["A", "B", "C", "D"]
      (Similarity.dense [[1, 9/10, 1/5, 1/2], [9/10, 1, 0, 0],
        [1/5, 0, 1, 0], [1/2, 0, 0, 1]]) "A" 0 4 [1, 9/10, 1/5, 1/2]
      (by decide) rfl rfl rfl (by norm_num)⟩

/-- C4: the returned recommendations carry non-increasing similarity
scores, and on the level of the underlying `(position, score)` pairs the
kept candidates are ordered with strictly larger scores first and equal
scores in ascending order of original row position (stability of Python's
sort with `reverse=True`). -/
theorem recommend_sorted_desc {movies : List String} {sim : Similarity}
    {movie : String} {idx : Nat} {row : List ℚ}
    (hfind : movies.findIdx? (fun t => t == movie) = some idx)
    (hrow : getRow? sim idx = some row) :
    (recommend movies sim movie).Pairwise
      (fun a b => b.similarity_score ≤ a.similarity_score) ∧
    (rankedPairs row).Pairwise LexAfter := by
  have hlex : (sortDesc (enumerate row)).Pairwise LexAfter :=
    pairwise_lex_sortDesc (enumerate row) (pairwise_fst_enumFrom 0 row)
  have hrp : (rankedPairs row).Pairwise LexAfter :=
    List.Pairwise.sublist ((List.take_sublist 5 _).trans (List.drop_sublist 1 _)) hlex
  refine ⟨?_, hrp⟩
  rw [recommend_eq_of_found hfind hrow]
  cases h : buildRecs movies (rankedPairs row) with
  | none => simp
  | some rs =>
    simp only [Option.getD_some]
    exact buildRecs_pairwise h (hrp.imp snd_le_of_lexAfter)

/-- Witness for C4 on a concrete 4-movie catalog with a tied pair of
scores: positions 2 and 3 both score 1/2 and appear in ascending position
order. -/
theorem recommend_sorted_desc_witness :
    (["A", "B", "C", "D"].findIdx? (fun t => t == "A") = some 0) ∧
    (getRow? (Similarity.dense [[1, 1/2, 1/2, 9/10], [0, 1, 0, 0],
        [0, 0, 1, 0], [0, 0, 0, 1]]) 0 = some [1, 1/2, 1/2, 9/10]) ∧
    (recommend ["A", "B", "C", "D"]
        (Similarity.dense [[1, 1/2, 1/2, 9/10], [0, 1, 0, 0],
          [0, 0, 1, 0], [0, 0, 0, 1]]) "A").Pairwise
      (fun a b => b.similarity_score ≤ a.similarity_score) ∧
    (rankedPairs [1, 1/2, 1/2, 9/10]).Pairwise LexAfter := by
  have h := @recommend_sorted_desc ["A", "B", "C", "D"]
    (Similarity.dense [[1, 1/2, 1/2, 9/10], [0, 1, 0, 0],
      [0, 0, 1, 0], [0, 0, 0, 1]]) "A" 0 [1, 1/2, 1/2, 9/10]
    (by decide) rfl
  exact ⟨by decide, rfl, h.1, h.2⟩

/-- C1 counterexample: the code removes the top-ranked pair of the
descending sort (`[1:6]`), not the pair at the query's position.  On a
symmetric matrix whose query self-similarity (1/2) is not the maximum of
its row, the query movie itself appears in the output. -/
theorem recommend_includes_query_cex :
    ∃ r ∈ recommend ["A", "B"] (Similarity.dense [[1/2, 9/10], [9/10, 1]]) "A",
      r.title = "A" := by
  refine ⟨⟨"A", 50⟩, ?_, rfl⟩
  norm_num [recommend, recommendE, getRow?, rankedPairs, sortDesc, sortBy, insertBy,
    pairGe, enumerate, enumFrom, buildRecs, List.findIdx?_cons, beq_iff_eq]

/-- C1 amended: the query is excluded by its rank in the sorted order,
not by identity of position; consequently `recommend` never returns the
query's title provided the query's own similarity entry is strictly
greater than every other entry of its row (the normal situation, with
self-similarity 1.0 maximal) and titles are unique. -/
theorem recommend_excludes_query_of_strict_max {movies : List String}
    {sim : Similarity} {movie : String} {idx : Nat} {row : List ℚ} {s : ℚ}
    (hfind : movies.findIdx? (fun t => t == movie) = some idx)
    (hrow : getRow? sim idx = some row)
    (hnodup : movies.Nodup)
    (hs : row[idx]? = some s)
    (hmax : ∀ q ∈ enumerate row, q.1 ≠ idx → q.2 < s) :
    ∀ r ∈ recommend movies sim movie, r.title ≠ movie := by
  rcases List.findIdx?_eq_some_iff_getElem.mp hfind with ⟨hidxm, hbeq, -⟩
  have hTitle : movies[idx] = movie := by simpa using hbeq
  have hmovIdx : movies[idx]? = some movie := by
    rw [List.getElem?_eq_getElem hidxm, hTitle]
  rcases List.getElem?_eq_some.mp hs with ⟨hidxr, hrowval⟩
  have hmmem : ((idx, s) : Nat × ℚ) ∈ enumerate row := by
    have := getElem_mem_enumerate row idx hidxr
    rwa [hrowval] at this
  have huniq : ∀ q ∈ enumerate row, q.1 = idx → q = (idx, s) := by
    intro q hq hq1
    have hget := (mem_enumerate hq).2
    rw [hq1, hs] at hget
    have h2 : s = q.2 := by injection hget
    obtain ⟨q1, q2⟩ := q
    simp only [Prod.mk.injEq]
    exact ⟨hq1, h2.symm⟩
  have hnd : (sortDesc (enumerate row)).Nodup :=
    ((sortBy_perm pairGe (enumerate row)).nodup_iff).mpr (nodup_enumerate row)
  have hperm : (sortDesc (enumerate row)).Perm (enumerate row) :=
    sortBy_perm pairGe (enumerate row)
  have hge := pairwise_ge_sortDesc (enumerate row)
  cases hsd : sortDesc (enumerate row) with
  | nil =>
    have hm : ((idx, s) : Nat × ℚ) ∈ sortDesc (enumerate row) :=
      hperm.mem_iff.mpr hmmem
    rw [hsd] at hm
    simp at hm
  | cons h0 t =>
    rw [hsd] at hnd hperm hge
    have htail : ∀ q ∈ t, q.1 ≠ idx := by
      intro q hq hq1
      have hqmem : q ∈ enumerate row := hperm.subset (List.mem_cons_of_mem h0 hq)
      have hqm : q = (idx, s) := huniq q hqmem hq1
      have hh0mem : h0 ∈ enumerate row := hperm.subset (List.mem_cons_self h0 t)
      by_cases hh0 : h0.1 = idx
      · have hh0m : h0 = (idx, s) := huniq h0 hh0mem hh0
        rcases List.nodup_cons.mp hnd with ⟨hnotin, -⟩
        rw [hqm] at hq
        rw [hh0m] at hnotin
        exact hnotin hq
      · have hlt : h0.2 < s := hmax h0 hh0mem hh0
        rcases List.pairwise_cons.mp hge with ⟨hgeh, -⟩
        have hle : q.2 ≤ h0.2 := hgeh q hq
        rw [hqm] at hle
        exact absurd hle (not_le.mpr hlt)
    intro r hr
    rw [recommend_eq_of_found hfind hrow] at hr
    cases hb : buildRecs movies (rankedPairs row) with
    | none => rw [hb] at hr; simp at hr
    | some rs =>
      rw [hb] at hr
      simp only [Option.getD_some] at hr
      rcases buildRecs_mem hb hr with ⟨p, hp, hptitle, -⟩
      have hpt : p ∈ t := by
        have hrw : rankedPairs row = t.take 5 := by
          unfold rankedPairs
          rw [hsd, List.drop_one, List.tail_cons]
        rw [hrw] at hp
        exact List.take_subset 5 t hp
      have hpne : p.1 ≠ idx := htail p hpt
      intro hTeq
      have hplt : p.1 < movies.length := by
        rcases List.getElem?_eq_some.mp hptitle with ⟨h, -⟩
        exact h
      have : p.1 = idx :=
        List.getElem?_inj hplt hnodup (by rw [hptitle, hTeq, hmovIdx])
      exact hpne this

/-- Witness for the amended C1: with a strictly maximal self-similarity
the query title never appears in the output. -/
theorem recommend_excludes_query_witness :
    (["A", "B"].findIdx? (fun t => t == "A") = some 0) ∧
    (["A", "B"] : List String).Nodup ∧
    (([(1 : ℚ), 1/2])[0]? = some 1) ∧
    (∀ q ∈ enumerate [(1 : ℚ), 1/2], q.1 ≠ 0 → q.2 < 1) ∧
    ∀ r ∈ recommend ["A", "B"] (Similarity.dense [[1, 1/2], [1/2, 1]]) "A",
      r.title ≠ "A" := by
  have hmaxw : ∀ q ∈ enumerate [(1 : ℚ), 1/2], q.1 ≠ 0 → q.2 < 1 := by
    intro q hq
    have hq' : q = (0, 1) ∨ q = (1, 1/2) := by
      simpa [enumerate, enumFrom] using hq
    rcases hq' with rfl | rfl
    · simp
    · intro _h
      norm_num
  exact ⟨by decide, by decide, rfl, hmaxw,
    @recommend_excludes_query_of_strict_max ["A", "B"]
      (Similarity.dense [[1, 1/2], [1/2, 1]]) "A" 0 [1, 1/2] 1
      (by decide) rfl (by decide) rfl hmaxw⟩

/-- C3 counterexample: `recommend` takes no `k` argument (the candidate
count is hard-wired to 5 by the slice `[1:6]`), so on the catalog
{A, B, C, D} with row(0) = [1, 0.9, 0.2, 0.5] the call for "A" does not
return the 2-entry list the claim attributes to `recommend("A", 2)`. -/
theorem recommend_no_k_parameter_cex :
    recommend ["A", "B", "C", "D"]
      (Similarity.dense [[1, 9/10, 1/5, 1/2], [9/10, 1, 0, 0],
        [1/5, 0, 1, 0], [1/2, 0, 0, 1]]) "A"
      ≠ [⟨"B", 90⟩, ⟨"D", 50⟩] := by
  norm_num [recommend, recommendE, getRow?, rankedPairs, sortDesc, sortBy, insertBy,
    pairGe, enumerate, enumFrom, buildRecs, List.findIdx?_cons, beq_iff_eq]

/-- C3 amended: on the catalog {A:0, B:1, C:2, D:3} with
row(0) = [1, 0.9, 0.2, 0.5], `recommend("A")` — the only call shape the
code offers, with the candidate count fixed at 5 — returns exactly the
three entries B (90), D (50), C (20) in that order, matching the claim's
`recommend("A", 10)` example. -/
theorem recommend_example_three_entries :
    recommend ["A", "B", "C", "D"]
      (Similarity.dense [[1, 9/10, 1/5, 1/2], [9/10, 1, 0, 0],
        [1/5, 0, 1, 0], [1/2, 0, 0, 1]]) "A"
      = [⟨"B", 90⟩, ⟨"D", 50⟩, ⟨"C", 20⟩] := by
  norm_num [recommend, recommendE, getRow?, rankedPairs, sortDesc, sortBy, insertBy,
    pairGe, enumerate, enumFrom, buildRecs, List.findIdx?_cons, beq_iff_eq]

end MovieRec
